import Mathlib

/-!
Shallow embedding of the duration-matching scheduler of the repository.

Two components are modelled, faithfully translated from the source:

* `calculate_trim_instructions` / `validate_trim_instructions` embed
  `DurationController.calculate_trim_instructions` and
  `DurationController.validate_trim_instructions`
  (src/duration_controller.py).  The Python code measures the input
  videos with `get_video_duration`; the embedding works directly on the
  list of measured durations, as the spec's data model does
  (`Clip = {id, duration}`).  Floats are modelled as exact rationals.

* `find_best_video_combination` embeds
  `GoogleDriveHandler.find_best_video_combination`
  (src/google_drive_handler.py).  Randomness (`random.choice`,
  `random.uniform`, `random.random`, `random.shuffle`) is modelled by an
  explicit tape of rationals: each draw consumes one tape entry, and a
  fraction drawn from the tape is clamped into `[0,1]`, so every
  behaviour of Python's generator corresponds to some tape.  The result
  of the initial `random.shuffle` is passed as the `shuffled` argument.
  The two `while` loops of the source are not structurally terminating,
  so the embedding takes a fuel argument; running out of fuel yields
  `Outcome.timeout`, a marker for a computation that has not finished
  after `fuel` loop iterations.
-/

namespace Maatok

/-- One trim instruction of `DurationController.calculate_trim_instructions`:
the Python dict `{'start_time': ..., 'end_time': ..., 'loop_count': ...}`. -/
structure Instr where
  start_time : ℚ
  end_time : ℚ
  loop_count : ℤ
deriving DecidableEq, Repr

/-- `Σ (end_time - start_time) * loop_count` over a plan: the recomputed
total duration used by `validate_trim_instructions` and by the DEBUG
`expected_duration` computation of the source. -/
def planTotal (instrs : List Instr) : ℚ :=
  (instrs.map (fun i => (i.end_time - i.start_time) * (i.loop_count : ℚ))).sum

/-- Replace the element at position `i` by `f` of it (Python
`instructions[idx]['...'] = ...`). -/
def updAt (l : List Instr) (i : ℕ) (f : Instr → Instr) : List Instr :=
  l.set i (f (l.getD i ⟨0, 0, 0⟩))

/-- The descending-duration order used by
`sorted(range(len(durations)), key=lambda k: durations[k], reverse=True)`.
Python's sort is stable, as is `List.insertionSort`, so sorting the index
list with `durations[j] ≤ durations[i]` reproduces it. -/
def byDescDuration (durations : List ℚ) (i j : ℕ) : Prop :=
  durations.getD j 0 ≤ durations.getD i 0

instance (durations : List ℚ) : DecidableRel (byDescDuration durations) :=
  fun i j => inferInstanceAs (Decidable (_ ≤ _))

/-- The `for idx in sorted_indices` loop of the too-short branch: walk the
indices, stopping once `current_duration >= min_duration`; add a full
extra loop when it stays `≤ max_duration`, otherwise add a partial loop,
overwriting the instruction's `end_time` with
`min(remaining, durations[idx])`. -/
def addLoops (durations : List ℚ) (minD maxD : ℚ) :
    List ℕ → List Instr → ℚ → List Instr × ℚ
  | [], instrs, cur => (instrs, cur)
  | idx :: rest, instrs, cur =>
    if minD ≤ cur then (instrs, cur)
    else
      let d := durations.getD idx 0
      if cur + d ≤ maxD then
        addLoops durations minD maxD rest
          (updAt instrs idx (fun ins => { ins with loop_count := ins.loop_count + 1 }))
          (cur + d)
      else
        let remaining := minD - cur
        let partDur := min remaining d
        addLoops durations minD maxD rest
          (updAt instrs idx
            (fun ins => { ins with loop_count := ins.loop_count + 1, end_time := partDur }))
          (cur + partDur)

/-- Embedding of `DurationController.calculate_trim_instructions`
(src/duration_controller.py, lines 17-134), over the measured durations.
`minD`/`maxD` are the controller's `min_duration`/`max_duration`. -/
def calculate_trim_instructions (durations : List ℚ) (minD maxD : ℚ) : List Instr :=
  let total := durations.sum
  if minD ≤ total ∧ total ≤ maxD then
    durations.map (fun d => ⟨0, d, 1⟩)
  else if total < minD then
    let base_loops : ℤ := ⌊minD / total⌋
    let base_duration := total * (base_loops : ℚ)
    let sorted_indices :=
      List.insertionSort (byDescDuration durations) (List.range durations.length)
    let instrs := durations.map (fun d => ⟨0, d, base_loops⟩)
    (addLoops durations minD maxD sorted_indices instrs base_duration).1
  else
    let target_duration := (minD + maxD) / 2
    let excess_duration := total - target_duration
    durations.map (fun d =>
      let trim_amount := d / total * excess_duration
      let trim_per_side := trim_amount / 2
      ⟨trim_per_side, d - trim_per_side, 1⟩)

/-- Embedding of `DurationController.validate_trim_instructions`
(src/duration_controller.py, lines 136-155). -/
def validate_trim_instructions (durations : List ℚ) (instrs : List Instr)
    (minD maxD : ℚ) : Bool :=
  if durations.length ≠ instrs.length then false
  else decide (minD ≤ planTotal instrs ∧ planTotal instrs ≤ maxD)

/-! ## SegmentComposer (`GoogleDriveHandler.find_best_video_combination`) -/

/-- A source video as the composer sees it: the metadata dict reduced to
an identifier and its measured duration in seconds.  Python compares
video dicts by value (`video != last_video`); distinct pool entries get
distinct ids. -/
structure Video where
  id : ℕ
  duration : ℚ
deriving DecidableEq, Repr

/-- One output segment: the dict
`{'video': ..., 'start': ..., 'end': ..., 'duration': ..., 'speed_up': ...}`. -/
structure Segment where
  video : Video
  start : ℚ
  endTime : ℚ
  duration : ℚ
  speed_up : Bool
deriving DecidableEq, Repr

/-- The random tape: one rational per random draw.  A draw used as a
fraction is clamped into `[0,1]`, so every value Python's
`random.random()` can produce corresponds to some tape entry. -/
abbrev Tape := List ℚ

/-- Draw a fraction in `[0,1]` from the tape (models `random.random()`;
an exhausted tape keeps yielding 0). -/
def frac (t : Tape) : ℚ × Tape :=
  match t with
  | [] => (0, [])
  | x :: rest => (max 0 (min 1 x), rest)

/-- Models `random.uniform(a, b)`: `a + (b - a) * f` with `f ∈ [0,1]`. -/
def uniformQ (a b : ℚ) (t : Tape) : ℚ × Tape :=
  let fr := frac t
  (a + (b - a) * fr.1, fr.2)

/-- Models `random.choice` on a list of length `n`: an arbitrary index
below `n`, read from the tape. -/
def choiceIdx (n : ℕ) (t : Tape) : ℕ × Tape :=
  match t with
  | [] => (0, [])
  | x :: rest => (Int.toNat ⌊x⌋ % n, rest)

/-- The inner `while True` re-roll of the source (lines 170-173): pick a
random video until it differs from `last_video`.  The source loop is
unbounded; the embedding spends one fuel per attempt and returns `none`
when the budget is exhausted (a nontermination marker). -/
def pickVideo (sel : List Video) (lastV : Option Video) :
    ℕ → Tape → Option (Video × Tape)
  | 0, _ => none
  | Nat.succ n, t =>
    let ci := choiceIdx sel.length t
    let v := sel.getD ci.1 ⟨0, 0⟩
    if some v = lastV then pickVideo sel lastV n ci.2 else some (v, ci.2)

/-- Segment-length draw (lines 175-179): exactly `remaining` when
`remaining ≤ 1.0`, else `random.uniform(1.0, min(1.5, remaining))`. -/
def segDurDraw (remaining : ℚ) (t : Tape) : ℚ × Tape :=
  if remaining ≤ 1 then (remaining, t) else uniformQ 1 (min (3/2) remaining) t

/-- One step of the available-range sweep (lines 195-202), with the
`available_ranges` list kept in reverse:  Python reads and rewrites only
`available_ranges[-1]` and appends at the end, which in the reversed
representation is the head.  `[]` stays `[]`, mirroring the
`if not available_ranges: break`. -/
def sweepStepR (availR : List (ℚ × ℚ)) (f : ℚ × ℚ) : List (ℚ × ℚ) :=
  match availR with
  | [] => []
  | lastR :: rest =>
    let a1 := if lastR.1 < f.1 then (lastR.1, f.1) :: rest else lastR :: rest
    if f.2 < lastR.2 then (f.2, lastR.2) :: a1 else a1

/-- Lexicographic order on ranges: Python's `sorted(forbidden_ranges)`
on pairs. -/
def rangeLex (a b : ℚ × ℚ) : Prop :=
  a.1 < b.1 ∨ (a.1 = b.1 ∧ a.2 ≤ b.2)

instance : DecidableRel rangeLex :=
  fun a b => inferInstanceAs (Decidable (_ ∨ _ ∧ _))

/-- The free-range computation of lines 193-202 (the spec's
IntervalAllocator): start from `[(0, max_start)]`, fold the sorted
forbidden ranges through the sweep, and restore Python's list order. -/
def availRanges (maxStart : ℚ) (forb : List (ℚ × ℚ)) : List (ℚ × ℚ) :=
  ((List.insertionSort rangeLex forb).foldl sweepStepR [(0, maxStart)]).reverse

/-- `x` lies in one of the ranges (endpoints included). -/
def memRanges (x : ℚ) (rs : List (ℚ × ℚ)) : Prop :=
  ∃ r ∈ rs, r.1 ≤ x ∧ x ≤ r.2

instance (x : ℚ) (rs : List (ℚ × ℚ)) : Decidable (memRanges x rs) :=
  inferInstanceAs (Decidable (∃ r ∈ rs, _ ∧ _))

/-- Lines 229-232: when the loop overshot the target, shrink the last
segment's `end` and `duration` by the overage. -/
def adjustLast (segs : List Segment) (overage : ℚ) : List Segment :=
  match segs with
  | [] => []
  | _ :: _ =>
    let s := segs.getLastD ⟨⟨0, 0⟩, 0, 0, 0, false⟩
    segs.dropLast ++
      [{ s with endTime := s.endTime - overage, duration := s.duration - overage }]

/-- The body of one `while` iteration after the video pick
(lines 166-233 of the source): draw the segment length, build the
forbidden ranges of the chosen video, compute the free ranges, and
either `continue` with the state unchanged (`.inl`, no valid range —
line 205-206), advance with the new segment appended (`.inl`), or
`break` and return the finished segment list (`.inr`, lines 226-233,
shrinking the last segment when the target was overshot). -/
def composeIter (target cur : ℚ) (lastV : Option Video) (segs : List Segment)
    (v : Video) (t1 : Tape) :
    (ℚ × Option Video × List Segment × Tape) ⊕ List Segment :=
  let remaining := target - cur
  let sd := segDurDraw remaining t1
  let segdur := sd.1
  let maxStart := v.duration - segdur
  let forb := (segs.filter (fun s => s.video == v)).map
    (fun s => (max 0 (s.start - 2), min v.duration (s.endTime + 2)))
  let avail := availRanges maxStart forb
  let valid := avail.filter (fun r => decide (segdur ≤ r.2 - r.1))
  if avail = [] ∨ valid = [] then .inl (cur, lastV, segs, sd.2)
  else
    let ci := choiceIdx valid.length sd.2
    let rng := valid.getD ci.1 (0, 0)
    let st := uniformQ rng.1 (rng.2 - segdur) ci.2
    let sp := frac st.2
    let seg : Segment :=
      ⟨v, st.1, st.1 + segdur, segdur, decide (sp.1 < 3/10)⟩
    let segs' := segs ++ [seg]
    let cur' := cur + segdur
    if target ≤ cur' then
      .inr (if target < cur' then adjustLast segs' (cur' - target) else segs')
    else
      .inl (cur', some v, segs', sp.2)

/-- The main `while current_duration < target_duration` loop of
`find_best_video_combination` (lines 165-233).  One fuel is spent per
loop iteration (also on the `continue` path); `none` marks a
computation still unfinished when the fuel runs out. -/
def composeAux (sel : List Video) (target : ℚ) :
    ℕ → ℚ → Option Video → List Segment → Tape → Option (List Segment)
  | 0, cur, _, segs, _ => if target ≤ cur then some segs else none
  | Nat.succ fuel, cur, lastV, segs, t =>
    if target ≤ cur then some segs
    else
      match pickVideo sel lastV (Nat.succ fuel) t with
      | none => none
      | some (v, t1) =>
        match composeIter target cur lastV segs v t1 with
        | .inl (cur', lastV', segs', t') =>
          composeAux sel target fuel cur' lastV' segs' t'
        | .inr res => some res

/-- Result of a `find_best_video_combination` call:
`insufficientSource` is the `raise ValueError` of line 149,
`plan` a normal return, and `timeout` marks a run that had not finished
within the given fuel (the source has no other exit from its loops). -/
inductive Outcome
  | insufficientSource
  | timeout
  | plan (segs : List Segment)
deriving DecidableEq, Repr

/-- Embedding of `GoogleDriveHandler.find_best_video_combination`
(src/google_drive_handler.py, lines 135-242).  `shuffled` is the result
of `random.shuffle` on a copy of `videos`; `margin` is the (unused)
keyword argument of the source. -/
def find_best_video_combination (videos : List Video) (target_duration : ℚ)
    (min_videos : ℕ) (margin : ℚ) (shuffled : List Video) (fuel : ℕ)
    (t : Tape) : Outcome :=
  if videos.length < min_videos then .insufficientSource
  else
    let selected_videos := shuffled.take min_videos
    match composeAux selected_videos target_duration fuel 0 none [] t with
    | none => .timeout
    | some segs => .plan segs

/-- Total of the `duration` fields of a plan. -/
def sumDur (segs : List Segment) : ℚ :=
  (segs.map (fun s => s.duration)).sum

/-- Number of distinct source videos referenced by a plan. -/
def distinctClips (segs : List Segment) : ℕ :=
  ((segs.map (fun s => s.video)).dedup).length

/-- The spec's spacing property as a checker: every two segments of the
same clip are at least 2 seconds apart in source-clip time (start of the
later minus end of the earlier). -/
def spacingOK : List Segment → Bool
  | [] => true
  | s :: rest =>
    (rest.all (fun s2 =>
      !(s.video == s2.video) ||
        (decide (2 ≤ s2.start - s.endTime) || decide (2 ≤ s.start - s2.endTime)))) &&
    spacingOK rest

/-! ## Theorems -/

/-- C1: the tolerance property fails on the code.  For the single clip
of duration 10 with acceptable interval `[21,28]`, the too-short branch
sets `base_loops = 2`, then (since `20 + 10 > 28`) takes the
partial-loop branch, overwriting the clip's `end_time` with the 1-second
deficit for *all three* loops.  The returned plan recomputes to
`Σ (end-start)*loop_count = 3`, far outside `[21,28]`, no error is
raised, and the controller's own `validate_trim_instructions` rejects
the plan it produced. -/
theorem C1_tolerance_violated :
    calculate_trim_instructions [10] 21 28 = [⟨0, 1, 3⟩] ∧
    planTotal (calculate_trim_instructions [10] 21 28) = 3 ∧
    ¬(21 ≤ planTotal (calculate_trim_instructions [10] 21 28) ∧
      planTotal (calculate_trim_instructions [10] 21 28) ≤ 28) ∧
    validate_trim_instructions [10] (calculate_trim_instructions [10] 21 28) 21 28
      = false := by
  with_unfolding_all decide

/-- C6: looping monotonicity fails on the code.  For the single clip of
duration 15 with interval `[21,28]`, `base_loops = 1`; the partial-loop
branch overwrites `end_time` with 6, so under the materializer semantics
"extract `[start,end)` and repeat `loop_count` times" the clip receives
two plays of `[0,6)` — zero full 15-second plays (the claim promises at
least `base_loops = 1`) and two partial plays (the claim promises at most
one). -/
theorem C6_looping_monotonicity_violated :
    calculate_trim_instructions [15] 21 28 = [⟨0, 6, 2⟩] ∧
    (6 : ℚ) ≠ 15 ∧
    planTotal (calculate_trim_instructions [15] 21 28) = 12 := by
  with_unfolding_all decide

/-- C7 counterexample: on clips `[4]` with interval `[21,28]` the code
does not return the instruction `{start 0, end 1.0, loop_count 6}`
announced by the spec's scenario. -/
theorem C7_scenario_counterexample :
    calculate_trim_instructions [4] 21 28 ≠ [⟨0, 1, 6⟩] := by
  with_unfolding_all decide

/-- C7 amended: with `current = 20` and `20 + 4 = 24 ≤ 28`, the
full-loop branch (not the partial branch) fires, so the single clip gets
a sixth *full* loop: `{start 0, end 4.0, loop_count 6}`, and the plan
totals 24 seconds, inside `[21,28]`. -/
theorem C7_full_loop_instead :
    calculate_trim_instructions [4] 21 28 = [⟨0, 4, 6⟩] ∧
    planTotal (calculate_trim_instructions [4] 21 28) = 24 := by
  with_unfolding_all decide

/-- C9 counterexample: a run through the partial-loop branch stays in
range.  On clips `[16]` with interval `[21,28]` the partial branch fires
(`16 + 16 = 32 > 28`) and emits `end_time = min(remaining, 16) = 5`,
which satisfies `0 ≤ start < end ≤ duration` — the claim's out-of-range
instruction does not appear, because line 86 of the source clamps with
`min(remaining, durations[idx])`. -/
theorem C9_partial_branch_in_range :
    calculate_trim_instructions [16] 21 28 = [⟨0, 5, 2⟩] ∧
    ((0 : ℚ) ≤ 0 ∧ (0 : ℚ) < 5 ∧ (5 : ℚ) ≤ 16) := by
  with_unfolding_all decide

/-- C4: the minimum-distinct-clips guarantee fails on the code.  With a
pool of two 10-second videos, `min_videos = 2` and target `0.5`, the
first (exact-fit) segment already reaches the target, so the returned
plan references a single distinct clip — fewer than `min_videos`.
Nothing in the loop forces every selected video to be used. -/
theorem C4_distinct_clips_violated :
    find_best_video_combination [⟨0, 10⟩, ⟨1, 10⟩] (1/2) 2 (1/10)
      [⟨0, 10⟩, ⟨1, 10⟩] 5 [0, 0, 0, 1]
      = .plan [⟨⟨0, 10⟩, 0, 1/2, 1/2, false⟩] ∧
    distinctClips [⟨⟨0, 10⟩, 0, 1/2, 1/2, false⟩] = 1 ∧ 1 < 2 := by
  with_unfolding_all decide

/-- C5: the 2-second spacing property fails on the code.  With two
10-second videos and target 3, a run places `[0,1]` on video 0, `[0,1]`
on video 1, then returns to video 0: its forbidden range is `[0,3]`, but
the sweep never truncates the initial free range `(0,9)` (the truncation
guard `start > last_start` is false at `0 > 0`), so `(0,9)` survives and
the third segment is placed at `[0.5,1.5]`, overlapping `[0,1]` on the
same clip — gap `-0.5 < 2`. -/
theorem C5_spacing_violated :
    find_best_video_combination [⟨0, 10⟩, ⟨1, 10⟩] 3 2 (1/10)
      [⟨0, 10⟩, ⟨1, 10⟩] 10 [0, 0, 0, 0, 1, 1, 0, 0, 0, 1, 0, 0, 1/16, 1]
      = .plan [⟨⟨0, 10⟩, 0, 1, 1, false⟩, ⟨⟨1, 10⟩, 0, 1, 1, false⟩,
               ⟨⟨0, 10⟩, 1/2, 3/2, 1, false⟩] ∧
    spacingOK [⟨⟨0, 10⟩, 0, 1, 1, false⟩, ⟨⟨1, 10⟩, 0, 1, 1, false⟩,
               ⟨⟨0, 10⟩, 1/2, 3/2, 1, false⟩] = false := by
  with_unfolding_all decide

/-- C3 counterexample: with two half-second clips and target 10, no
segment of the required minimum length 1.0 ever fits, the loop
`continue`s forever, and after 30 iterations the call has neither
returned a plan nor raised any error (the source defines no
`AllocationExhausted` and no attempt counter). -/
theorem C3_saturated_run_unfinished :
    find_best_video_combination [⟨0, 1/2⟩, ⟨1, 1/2⟩] 10 2 (1/10)
      [⟨0, 1/2⟩, ⟨1, 1/2⟩] 30 [] = .timeout := by
  with_unfolding_all decide

/-- C8 counterexample: the free ranges are not the exact set-complement
of the forbidden ranges.  For domain `[0,9]` and the single forbidden
range `(0,3)` (as arises from a segment at the very start of a clip),
the sweep returns `[(0,9),(3,9)]`: the point `1` lies in the returned
free range `(0,9)` and in the forbidden range and in the domain,
refuting the claimed equivalence. -/
theorem C8_not_exact_complement :
    availRanges 9 [(0, 3)] = [(0, 9), (3, 9)] ∧
    memRanges 1 (availRanges 9 [(0, 3)]) ∧
    memRanges 1 [(0, 3)] ∧ (0 : ℚ) ≤ 1 ∧ (1 : ℚ) ≤ 9 := by
  with_unfolding_all decide

/-- C10: the output of `find_best_video_combination` is independent of
the `margin` argument — the parameter is never read in the body, so two
calls differing only in `margin` (same pool, target, `min_videos`,
shuffle outcome and random tape) return identical results. -/
theorem C10_margin_never_read (videos : List Video) (target : ℚ)
    (min_videos : ℕ) (m1 m2 : ℚ) (shuffled : List Video) (fuel : ℕ)
    (t : Tape) :
    find_best_video_combination videos target min_videos m1 shuffled fuel t =
    find_best_video_combination videos target min_videos m2 shuffled fuel t :=
  rfl

/-! ### Helper lemmas about list updates -/

theorem getD_updAt_ne (l : List Instr) (i j : ℕ) (f : Instr → Instr)
    (h : i ≠ j) : (updAt l i f).getD j ⟨0, 0, 0⟩ = l.getD j ⟨0, 0, 0⟩ := by
  unfold updAt
  rw [List.getD_eq_getElem?_getD, List.getElem?_set, if_neg h,
    ← List.getD_eq_getElem?_getD]

theorem getD_updAt_self (l : List Instr) (i : ℕ) (f : Instr → Instr)
    (h : i < l.length) :
    (updAt l i f).getD i ⟨0, 0, 0⟩ = f (l.getD i ⟨0, 0, 0⟩) := by
  unfold updAt
  rw [List.getD_eq_getElem?_getD, List.getElem?_set, if_pos rfl, if_pos h]
  rfl

theorem length_updAt (l : List Instr) (i : ℕ) (f : Instr → Instr) :
    (updAt l i f).length = l.length :=
  List.length_set l i _

theorem getD_map_instr (ds : List ℚ) (g : ℚ → Instr) (i : ℕ)
    (h : i < ds.length) :
    (ds.map g).getD i ⟨0, 0, 0⟩ = g (ds.getD i 0) := by
  rw [List.getD_eq_getElem (ds.map g) _ (by simpa using h),
    List.getD_eq_getElem ds _ h, List.getElem_map]

/-- Invariant of the extra-loop walk: if every instruction starts at 0
with `0 < end_time ≤ clip duration`, this still holds after `addLoops` —
the full-loop branch only bumps `loop_count`, and the partial branch
writes `end_time := min(min_duration - current, duration)`, positive
(the guard gives `current < min_duration`) and at most the duration. -/
theorem addLoops_preserves (durations : List ℚ) (minD maxD : ℚ)
    (hpos : ∀ d ∈ durations, 0 < d) :
    ∀ (idxs : List ℕ) (instrs : List Instr) (cur : ℚ),
    (∀ i ∈ idxs, i < durations.length) →
    instrs.length = durations.length →
    (∀ i, i < durations.length →
      (instrs.getD i ⟨0, 0, 0⟩).start_time = 0 ∧
      0 < (instrs.getD i ⟨0, 0, 0⟩).end_time ∧
      (instrs.getD i ⟨0, 0, 0⟩).end_time ≤ durations.getD i 0) →
    (addLoops durations minD maxD idxs instrs cur).1.length = durations.length ∧
    ∀ i, i < durations.length →
      ((addLoops durations minD maxD idxs instrs cur).1.getD i ⟨0, 0, 0⟩).start_time = 0 ∧
      0 < ((addLoops durations minD maxD idxs instrs cur).1.getD i ⟨0, 0, 0⟩).end_time ∧
      ((addLoops durations minD maxD idxs instrs cur).1.getD i ⟨0, 0, 0⟩).end_time ≤
        durations.getD i 0 := by
  intro idxs
  induction idxs with
  | nil => intro instrs cur _ hlen hinv; exact ⟨hlen, hinv⟩
  | cons idx rest ih =>
    intro instrs cur hmem hlen hinv
    have hidx : idx < durations.length := hmem idx (List.mem_cons_self idx rest)
    have hrest : ∀ i ∈ rest, i < durations.length :=
      fun i hi => hmem i (List.mem_cons_of_mem idx hi)
    have hd : 0 < durations.getD idx 0 := by
      refine hpos _ ?_
      rw [List.getD_eq_getElem durations _ hidx]
      exact List.getElem_mem hidx
    rw [addLoops]
    by_cases hstop : minD ≤ cur
    · rw [if_pos hstop]; exact ⟨hlen, hinv⟩
    · rw [if_neg hstop]
      simp only
      by_cases hfull : cur + durations.getD idx 0 ≤ maxD
      · rw [if_pos hfull]
        refine ih _ _ hrest (by rw [length_updAt]; exact hlen) ?_
        intro i hi
        by_cases hij : idx = i
        · subst hij
          rw [getD_updAt_self _ _ _ (by rw [hlen]; exact hidx)]
          exact hinv idx hidx
        · rw [getD_updAt_ne _ _ _ _ hij]; exact hinv i hi
      · rw [if_neg hfull]
        refine ih _ _ hrest (by rw [length_updAt]; exact hlen) ?_
        intro i hi
        by_cases hij : idx = i
        · subst hij
          rw [getD_updAt_self _ _ _ (by rw [hlen]; exact hidx)]
          refine ⟨(hinv idx hidx).1, ?_, ?_⟩
          · exact lt_min (by linarith [not_le.mp hstop]) hd
          · exact min_le_right _ _
        · rw [getD_updAt_ne _ _ _ _ hij]; exact hinv i hi

/-- C9 amended: in the too-short branch the partial `end_time` IS
clamped (`min(remaining, durations[idx])`, line 86 of the source), so
for every input with positive durations whose total falls below the
minimum, every returned instruction satisfies
`0 ≤ start_time < end_time ≤ clip duration`; no input produces an
out-of-range instruction. -/
theorem C9_no_out_of_range_instruction (durations : List ℚ) (minD maxD : ℚ)
    (hpos : ∀ d ∈ durations, 0 < d) (hshort : durations.sum < minD) :
    (calculate_trim_instructions durations minD maxD).length = durations.length ∧
    ∀ i, i < durations.length →
      0 ≤ ((calculate_trim_instructions durations minD maxD).getD i ⟨0, 0, 0⟩).start_time ∧
      ((calculate_trim_instructions durations minD maxD).getD i ⟨0, 0, 0⟩).start_time <
        ((calculate_trim_instructions durations minD maxD).getD i ⟨0, 0, 0⟩).end_time ∧
      ((calculate_trim_instructions durations minD maxD).getD i ⟨0, 0, 0⟩).end_time ≤
        durations.getD i 0 := by
  have hcalc : calculate_trim_instructions durations minD maxD =
      (addLoops durations minD maxD
        (List.insertionSort (byDescDuration durations) (List.range durations.length))
        (durations.map (fun d => ⟨0, d, ⌊minD / durations.sum⌋⟩))
        (durations.sum * ((⌊minD / durations.sum⌋ : ℤ) : ℚ))).1 := by
    unfold calculate_trim_instructions
    rw [if_neg (fun h => absurd hshort (not_lt.mpr h.1)), if_pos hshort]
  have hres := addLoops_preserves durations minD maxD hpos
    (List.insertionSort (byDescDuration durations) (List.range durations.length))
    (durations.map (fun d => ⟨0, d, ⌊minD / durations.sum⌋⟩))
    (durations.sum * ((⌊minD / durations.sum⌋ : ℤ) : ℚ))
    (fun i hi => List.mem_range.mp ((List.mem_insertionSort _).mp hi))
    (List.length_map durations _)
    (by
      intro i hi
      rw [getD_map_instr durations _ i hi]
      refine ⟨rfl, ?_, le_refl _⟩
      refine hpos _ ?_
      rw [List.getD_eq_getElem durations _ hi]
      exact List.getElem_mem hi)
  rw [hcalc]
  refine ⟨hres.1, fun i hi => ?_⟩
  obtain ⟨h0, h1, h2⟩ := hres.2 i hi
  exact ⟨by rw [h0], by rw [h0]; exact h1, h2⟩

/-- Witness for `C9_no_out_of_range_instruction` at clips `[10]`,
interval `[21,28]` — an input that exercises the partial-loop branch. -/
theorem C9_no_out_of_range_instruction_witness :
    ((∀ d ∈ ([10] : List ℚ), 0 < d) ∧ ([10] : List ℚ).sum < 21) ∧
    ((calculate_trim_instructions [10] 21 28).length = ([10] : List ℚ).length ∧
     ∀ i, i < ([10] : List ℚ).length →
      0 ≤ ((calculate_trim_instructions [10] 21 28).getD i ⟨0, 0, 0⟩).start_time ∧
      ((calculate_trim_instructions [10] 21 28).getD i ⟨0, 0, 0⟩).start_time <
        ((calculate_trim_instructions [10] 21 28).getD i ⟨0, 0, 0⟩).end_time ∧
      ((calculate_trim_instructions [10] 21 28).getD i ⟨0, 0, 0⟩).end_time ≤
        ([10] : List ℚ).getD i 0) :=
  ⟨⟨by norm_num, by norm_num⟩,
    C9_no_out_of_range_instruction [10] 21 28 (by norm_num) (by norm_num)⟩

/-! ### Completeness of the range sweep -/

theorem memRanges_cons_of {x : ℚ} (r : ℚ × ℚ) {l : List (ℚ × ℚ)}
    (h : memRanges x l) : memRanges x (r :: l) := by
  obtain ⟨s, hs, h1, h2⟩ := h
  exact ⟨s, List.mem_cons_of_mem r hs, h1, h2⟩

theorem memRanges_head {x : ℚ} {r : ℚ × ℚ} (l : List (ℚ × ℚ))
    (h1 : r.1 ≤ x) (h2 : x ≤ r.2) : memRanges x (r :: l) :=
  ⟨r, List.mem_cons_self r l, h1, h2⟩

/-- One sweep step never loses a point that lies outside the forbidden
range being processed: the truncation `(last_start, start)` only removes
points right of `start`, and those at most `end` away are restored by
the appended `(end, last_end)`. -/
theorem sweepStepR_mem {x : ℚ} {availR : List (ℚ × ℚ)} {f : ℚ × ℚ}
    (hx : memRanges x availR) (hf : ¬(f.1 ≤ x ∧ x ≤ f.2)) :
    memRanges x (sweepStepR availR f) := by
  obtain ⟨r, hr, hx1, hx2⟩ := hx
  cases availR with
  | nil => cases hr
  | cons lastR rest =>
    unfold sweepStepR
    simp only
    rcases List.mem_cons.mp hr with rfl | hrest
    · by_cases h1 : r.1 < f.1
      · rw [if_pos h1]
        rcases not_and_or.mp hf with hA | hB
        · have hxf : x ≤ f.1 := le_of_lt (not_le.mp hA)
          by_cases h2 : f.2 < r.2
          · rw [if_pos h2]
            exact memRanges_cons_of _ (memRanges_head _ hx1 hxf)
          · rw [if_neg h2]
            exact memRanges_head _ hx1 hxf
        · have hfx : f.2 < x := not_le.mp hB
          have h2 : f.2 < r.2 := lt_of_lt_of_le hfx hx2
          rw [if_pos h2]
          exact memRanges_head _ (le_of_lt hfx) hx2
      · rw [if_neg h1]
        by_cases h2 : f.2 < r.2
        · rw [if_pos h2]
          exact memRanges_cons_of _ (memRanges_head _ hx1 hx2)
        · rw [if_neg h2]
          exact memRanges_head _ hx1 hx2
    · have hbase : memRanges x (if lastR.1 < f.1 then (lastR.1, f.1) :: rest
          else lastR :: rest) := by
        by_cases h1 : lastR.1 < f.1
        · rw [if_pos h1]; exact memRanges_cons_of _ ⟨r, hrest, hx1, hx2⟩
        · rw [if_neg h1]; exact memRanges_cons_of _ ⟨r, hrest, hx1, hx2⟩
      by_cases h2 : f.2 < lastR.2
      · rw [if_pos h2]; exact memRanges_cons_of _ hbase
      · rw [if_neg h2]; exact hbase

theorem foldl_sweepStepR_mem {x : ℚ} :
    ∀ (fs : List (ℚ × ℚ)) (acc : List (ℚ × ℚ)),
    memRanges x acc → (∀ f ∈ fs, ¬(f.1 ≤ x ∧ x ≤ f.2)) →
    memRanges x (fs.foldl sweepStepR acc) := by
  intro fs
  induction fs with
  | nil => intro acc hacc _; exact hacc
  | cons f fs ih =>
    intro acc hacc hf
    rw [List.foldl_cons]
    exact ih _ (sweepStepR_mem hacc (hf f (List.mem_cons_self f fs)))
      (fun g hg => hf g (List.mem_cons_of_mem f hg))

/-- C8 amended: the sweep is complete but not exact.  Every point of the
domain `[0, max_start]` that lies in no forbidden range belongs to some
returned free range; the converse fails (see the counterexample: the
output can also cover forbidden points when ranges overlap or touch the
left edge of the domain). -/
theorem C8_free_ranges_cover_complement (maxStart x : ℚ)
    (forb : List (ℚ × ℚ)) (h0 : 0 ≤ x) (hM : x ≤ maxStart)
    (hf : ∀ f ∈ forb, ¬(f.1 ≤ x ∧ x ≤ f.2)) :
    memRanges x (availRanges maxStart forb) := by
  unfold availRanges
  have : memRanges x
      ((List.insertionSort rangeLex forb).foldl sweepStepR [(0, maxStart)]) := by
    refine foldl_sweepStepR_mem _ _ (memRanges_head _ h0 hM) ?_
    intro f hfmem
    exact hf f ((List.mem_insertionSort rangeLex).mp hfmem)
  obtain ⟨r, hr, h1, h2⟩ := this
  exact ⟨r, List.mem_reverse.mpr hr, h1, h2⟩

/-- Witness for `C8_free_ranges_cover_complement`: domain `[0,10]`,
forbidden `[(2,5)]`, point `1`. -/
theorem C8_free_ranges_cover_complement_witness :
    ((0 : ℚ) ≤ 1 ∧ (1 : ℚ) ≤ 10 ∧
      (∀ f ∈ ([((2 : ℚ), (5 : ℚ))] : List (ℚ × ℚ)), ¬(f.1 ≤ 1 ∧ (1 : ℚ) ≤ f.2))) ∧
    memRanges 1 (availRanges 10 [(2, 5)]) :=
  ⟨⟨by norm_num, by norm_num, by norm_num⟩,
    C8_free_ranges_cover_complement 10 1 [(2, 5)] (by norm_num) (by norm_num)
      (by norm_num)⟩

/-! ### The segment-sum invariant -/

theorem frac_nonneg (t : Tape) : 0 ≤ (frac t).1 := by
  cases t with
  | nil => exact le_refl 0
  | cons x r => exact le_max_left 0 _

theorem frac_le_one (t : Tape) : (frac t).1 ≤ 1 := by
  cases t with
  | nil => exact zero_le_one
  | cons x r => exact max_le zero_le_one (min_le_left 1 x)

/-- The drawn segment length never exceeds the remaining duration:
either it is exactly `remaining`, or it is at most
`min(1.5, remaining) ≤ remaining`. -/
theorem segDurDraw_le (rem : ℚ) (t : Tape) (h : 0 < rem) :
    (segDurDraw rem t).1 ≤ rem := by
  unfold segDurDraw
  by_cases h1 : rem ≤ 1
  · rw [if_pos h1]
  · rw [if_neg h1]
    unfold uniformQ
    simp only
    have hm1 : (1 : ℚ) ≤ min (3/2) rem :=
      le_min (by norm_num) (le_of_lt (not_le.mp h1))
    have hmr : min (3/2) rem ≤ rem := min_le_right _ _
    have hprod : (min (3/2) rem - 1) * (frac t).1 ≤ (min (3/2) rem - 1) * 1 :=
      mul_le_mul_of_nonneg_left (frac_le_one t) (by linarith)
    linarith

/-- In the non-exact branch the drawn segment length is at least 1. -/
theorem one_le_segDurDraw (rem : ℚ) (t : Tape) (h : ¬ rem ≤ 1) :
    1 ≤ (segDurDraw rem t).1 := by
  unfold segDurDraw
  rw [if_neg h]
  unfold uniformQ
  simp only
  have hm1 : (1 : ℚ) ≤ min (3/2) rem :=
    le_min (by norm_num) (le_of_lt (not_le.mp h))
  have := mul_nonneg (by linarith : (0 : ℚ) ≤ min (3/2) rem - 1) (frac_nonneg t)
  linarith

theorem sumDur_append (l : List Segment) (s : Segment) :
    sumDur (l ++ [s]) = sumDur l + s.duration := by
  simp [sumDur]

/-- One loop iteration preserves the invariant `sumDur segs = current ≤
target`: on `continue` nothing changes; on append, the new segment's
length is at most `remaining`, so the new total still does not exceed
the target; and the `break` branch can only fire with
`current' = target` exactly (the overshoot shrink of lines 229-232 is
dead in exact arithmetic). -/
theorem composeIter_spec (target cur : ℚ) (lastV : Option Video)
    (segs : List Segment) (v : Video) (t1 : Tape)
    (hsum : sumDur segs = cur) (hlt : cur < target) :
    match composeIter target cur lastV segs v t1 with
    | .inl (cur', _, segs', _) => sumDur segs' = cur' ∧ cur' ≤ target
    | .inr res => sumDur res = target := by
  have hrem : 0 < target - cur := by linarith
  have hsd : (segDurDraw (target - cur) t1).1 ≤ target - cur :=
    segDurDraw_le (target - cur) t1 hrem
  unfold composeIter
  simp only
  split_ifs with h1 h2 h3
  · exact ⟨hsum, le_of_lt hlt⟩
  · exact absurd h3 (not_lt.mpr (by linarith))
  · show sumDur (segs ++ [_]) = target
    rw [sumDur_append]
    have hge : cur + (segDurDraw (target - cur) t1).1 ≤ target := by linarith
    have heq := le_antisymm hge h2
    dsimp only
    linarith
  · refine ⟨?_, le_of_lt (not_le.mp h2)⟩
    show sumDur (segs ++ [_]) = _
    rw [sumDur_append]
    dsimp only
    linarith

/-- The loop invariant propagated through the fuel recursion: a
successful `composeAux` run starting from a state whose accumulated
duration equals the segment total and does not exceed the target
returns segments summing exactly to the target. -/
theorem composeAux_sum (sel : List Video) (target : ℚ) :
    ∀ (fuel : ℕ) (cur : ℚ) (lastV : Option Video) (segs : List Segment)
      (t : Tape) (out : List Segment),
    sumDur segs = cur → cur ≤ target →
    composeAux sel target fuel cur lastV segs t = some out →
    sumDur out = target := by
  intro fuel
  induction fuel with
  | zero =>
    intro cur lastV segs t out hsum hle h
    rw [composeAux] at h
    split_ifs at h with hc
    cases Option.some.inj h
    exact hsum.trans (le_antisymm hle hc)
  | succ fuel ih =>
    intro cur lastV segs t out hsum hle h
    rw [composeAux] at h
    split_ifs at h with hc
    · cases Option.some.inj h
      exact hsum.trans (le_antisymm hle hc)
    · cases hp : pickVideo sel lastV (Nat.succ fuel) t with
      | none => rw [hp] at h; exact Option.noConfusion h
      | some vt =>
        obtain ⟨v, t1⟩ := vt
        rw [hp] at h
        dsimp only at h
        have hspec := composeIter_spec target cur lastV segs v t1 hsum
          (not_le.mp hc)
        cases hiter : composeIter target cur lastV segs v t1 with
        | inl st =>
          obtain ⟨cur', lastV', segs', t'⟩ := st
          rw [hiter] at h hspec
          dsimp only at h hspec
          exact ih cur' lastV' segs' t' out hspec.1 hspec.2 h
        | inr res =>
          rw [hiter] at h hspec
          dsimp only at h hspec
          cases Option.some.inj h
          exact hspec

/-- C2: a successful `find_best_video_combination` run returns segments
whose `duration` fields sum exactly to the target (exact arithmetic; the
spec's "±floating-point epsilon" is the float image of this identity):
every non-final segment length is drawn at most `remaining`, the final
one is exactly `remaining`, and the overshoot-shrink branch is
unreachable. -/
theorem C2_segment_sum_exact (videos : List Video) (target : ℚ)
    (min_videos : ℕ) (margin : ℚ) (shuffled : List Video) (fuel : ℕ)
    (t : Tape) (out : List Segment) (htarget : 0 ≤ target)
    (h : find_best_video_combination videos target min_videos margin shuffled
      fuel t = .plan out) :
    sumDur out = target := by
  unfold find_best_video_combination at h
  split_ifs at h with hlen
  dsimp only at h
  cases hc : composeAux (shuffled.take min_videos) target fuel 0 none [] t with
  | none => rw [hc] at h; exact Outcome.noConfusion h
  | some segs =>
    rw [hc] at h
    dsimp only at h
    cases Outcome.plan.inj h
    exact composeAux_sum _ target fuel 0 none [] t _ (by simp [sumDur])
      htarget hc

/-- Witness for `C2_segment_sum_exact`: the concrete single-segment run
on two 10-second videos with target `0.5`. -/
theorem C2_segment_sum_exact_witness :
    (0 ≤ (1/2 : ℚ)) ∧ sumDur [⟨⟨0, 10⟩, 0, 1/2, 1/2, false⟩] = 1/2 :=
  ⟨by norm_num,
    C2_segment_sum_exact [⟨0, 10⟩, ⟨1, 10⟩] (1/2) 2 (1/10) [⟨0, 10⟩, ⟨1, 10⟩] 5
      [0, 0, 0, 1] [⟨⟨0, 10⟩, 0, 1/2, 1/2, false⟩] (by norm_num)
      (by with_unfolding_all decide)⟩

/-! ### Unboundedness of the retry loop on a saturated pool -/

theorem pickVideo_none_last (sel : List Video) (n : ℕ) (t : Tape) :
    pickVideo sel none (Nat.succ n) t =
      some (sel.getD (choiceIdx sel.length t).1 ⟨0, 0⟩,
        (choiceIdx sel.length t).2) := by
  rw [pickVideo]
  rw [if_neg (Option.some_ne_none _)]

/-- Whatever the tape says, the chosen video of the saturated two-video
pool has duration `1/2`. -/
theorem satPool_duration (t : Tape) :
    (([⟨0, 1/2⟩, ⟨1, 1/2⟩] : List Video).getD
      (choiceIdx ([⟨0, 1/2⟩, ⟨1, 1/2⟩] : List Video).length t).1
      ⟨0, 0⟩).duration = 1/2 := by
  cases t with
  | nil => rfl
  | cons x r =>
    rcases Nat.mod_two_eq_zero_or_one (Int.toNat ⌊x⌋) with h | h <;>
      simp [choiceIdx, h]

/-- On the saturated pool one iteration always takes the
no-valid-range `continue`: the drawn segment length is at least 1, so
`max_start = 1/2 - segment_duration < 0` and the single candidate range
is too short.  The state other than the tape is unchanged. -/
theorem composeIter_saturated (v : Video) (hv : v.duration = 1/2)
    (t1 : Tape) :
    composeIter 10 0 none [] v t1 =
      .inl (0, none, [], (segDurDraw 10 t1).2) := by
  have hzero : (10 : ℚ) - 0 = 10 := by norm_num
  have h1 : (1 : ℚ) ≤ (segDurDraw 10 t1).1 :=
    one_le_segDurDraw _ t1 (by norm_num)
  unfold composeIter
  rw [hzero]
  simp only [List.filter_nil, List.map_nil]
  have hav : availRanges (v.duration - (segDurDraw 10 t1).1) [] =
      [(0, v.duration - (segDurDraw 10 t1).1)] := by
    simp [availRanges]
  have hvalid : (availRanges (v.duration - (segDurDraw 10 t1).1)
      []).filter
      (fun r => decide ((segDurDraw 10 t1).1 ≤ r.2 - r.1)) = [] := by
    rw [hav]
    have hno : ¬ ((segDurDraw 10 t1).1 ≤
        (v.duration - (segDurDraw 10 t1).1) - 0) := by
      rw [hv]; intro hcon; linarith
    simp only [List.filter_cons, decide_eq_true_eq, if_neg hno,
      List.filter_nil]
  rw [if_pos (Or.inr hvalid)]

/-- For every fuel and tape, the saturated run is still in the loop:
the iteration count of the `continue` retry has no bound. -/
theorem composeAux_saturated (fuel : ℕ) :
    ∀ t : Tape,
    composeAux [⟨0, 1/2⟩, ⟨1, 1/2⟩] 10 fuel 0 none [] t = none := by
  induction fuel with
  | zero =>
    intro t
    rw [composeAux]
    rw [if_neg (by norm_num : ¬(10 : ℚ) ≤ 0)]
  | succ fuel ih =>
    intro t
    rw [composeAux]
    rw [if_neg (by norm_num : ¬(10 : ℚ) ≤ 0)]
    rw [pickVideo_none_last]
    dsimp only
    rw [composeIter_saturated
      (([⟨0, 1/2⟩, ⟨1, 1/2⟩] : List Video).getD
        (choiceIdx ([⟨0, 1/2⟩, ⟨1, 1/2⟩] : List Video).length t).1 ⟨0, 0⟩)
      (satPool_duration t)
      (choiceIdx ([⟨0, 1/2⟩, ⟨1, 1/2⟩] : List Video).length t).2]
    dsimp only
    exact ih _

/-- C3 amended: the source's retry loops carry no maximum attempt count
and no `AllocationExhausted` error exists anywhere in the code.  On a
pool of two half-second clips with target 10, no clip ever offers room
for a 1-second segment, so the `continue` of line 206 fires on every
iteration: for *every* fuel bound and every random tape the call is
still unfinished — the loop runs forever instead of failing. -/
theorem C3_retry_loop_unbounded (fuel : ℕ) (t : Tape) (margin : ℚ) :
    find_best_video_combination [⟨0, 1/2⟩, ⟨1, 1/2⟩] 10 2 margin
      [⟨0, 1/2⟩, ⟨1, 1/2⟩] fuel t = .timeout := by
  unfold find_best_video_combination
  rw [if_neg (by simp)]
  dsimp only
  rw [show ([⟨0, 1/2⟩, ⟨1, 1/2⟩] : List Video).take 2 =
    [⟨0, 1/2⟩, ⟨1, 1/2⟩] from rfl]
  rw [composeAux_saturated fuel t]

end Maatok
